import Mathlib

/-!
Verification of the release-o-matic core (src/index.ts) against its
natural-language specification.

Shallow embedding conventions:
- JS strings are `List Char` (abbreviated `Chars`); `str` injects Lean string
  literals.
- The regular expression test in the source `isBuildKey`
  (`/^[a-zA-Z0-9_-]+-\d+$/.test(key)`) is embedded as an executable checker
  `isBuildKey` that splits at the last dash; `MatchesBuildKeyRegex` states the
  declarative matching semantics of that regular expression, and the two are
  proved equivalent.
- JS `parseInt` (as applied to URL path segments and to the segments of a
  build key) is embedded as `jsParseInt` with its full ECMAScript behaviour:
  leading whitespace skipped, an optional `+`/`-` sign, radix 16 inferred from
  a `0x`/`0X` prefix, the longest leading digit run in the radix, and the
  resulting mathematical integer rounded to the nearest float64
  (round-half-even), whose integral value is returned exactly.  `none` models
  a result that fails the `Number.isInteger` guard every caller applies: `NaN`
  (no digits), or `±Infinity` (a digit run overflowing float64, ≥ ~1.8e308);
  the two render differently (`"NaN"`/`"Infinity"`) but both name build
  directories the service never creates, so no route distinguishes them.
  `Number.prototype.toString` on the resulting integral doubles is embedded as
  `jsNatToString`: the shortest decimal that rounds back to the double
  (closest on ties; the ECMAScript note leaves the tie digit loose), printed
  plainly below 1e21 and in exponential notation from 1e21 on — below 2^53
  this is exactly the number's own decimal digits.
- Readable date strings (`YYYY-MM-DD hh:mm:ss`, produced by
  `toReadableDateString` and compared via `fromReadableDateString`) are
  order-isomorphic to their underlying timestamps, so `releasedAt` is carried
  as the `Nat` timestamp it denotes.
- The filesystem is carried explicitly: a `GameDir` holds the environment
  build directories and the `prod/<platform>` directory (its `releases.json`
  ledger, its files together with the parsed contents of `files_*.json`
  manifests, and the `index.html` symlink target).  Each route handler becomes
  a state-passing function returning the new state and an `Except`; a thrown
  JS exception surfaces as an error value with the state accumulated so far,
  mirroring the mutation order of the source.
-/

abbrev Chars := List Char

def str (s : String) : Chars := s.data

/-- The character class `[a-zA-Z0-9_-]` of the build-key regular expression. -/
def isBuildKeyCharB (c : Char) : Bool :=
  c.isAlpha || c.isDigit || c == '_' || c == '-'

/-- Split a string at its last dash: `splitLastDash s = some (a, d)` iff
`s = a ++ '-' :: d` with `d` dash-free. -/
def splitLastDash : Chars → Option (Chars × Chars)
  | [] => none
  | c :: rest =>
    match splitLastDash rest with
    | some (a, d) => some (c :: a, d)
    | none => if c == '-' then some ([], rest) else none

/-- Source `isBuildKey`: `/^[a-zA-Z0-9_-]+-\d+$/.test(key)` as an executable
checker (the regular expression matches iff the string splits at its last dash
into a non-empty class-restricted part and a non-empty digit suffix). -/
def isBuildKey (key : Chars) : Bool :=
  match splitLastDash key with
  | some (a, d) => !a.isEmpty && !d.isEmpty && a.all isBuildKeyCharB && d.all Char.isDigit
  | none => false

/-- Declarative matching semantics of `^[a-zA-Z0-9_-]+-\d+$`, stated from the
spec's words. -/
def MatchesBuildKeyRegex (s : Chars) : Prop :=
  ∃ a d, s = a ++ '-' :: d ∧ a ≠ [] ∧ d ≠ [] ∧
    a.all isBuildKeyCharB = true ∧ d.all Char.isDigit = true

/-- JS `String.prototype.split(sep)` (single-character separator). -/
def jsSplitOn (sep : Char) : Chars → List Chars
  | [] => [[]]
  | c :: rest =>
    if c == sep then [] :: jsSplitOn sep rest
    else
      match jsSplitOn sep rest with
      | [] => [[c]]
      | seg :: segs => (c :: seg) :: segs

/-- Longest leading run of decimal digits. -/
def leadingDigits : Chars → Chars
  | [] => []
  | c :: rest => if c.isDigit then c :: leadingDigits rest else []

/-- Value of a digit string (most significant first). -/
def digitsToNat (ds : Chars) : Nat :=
  ds.foldl (fun acc c => acc * 10 + (c.toNat - '0'.toNat)) 0

/-- The ECMAScript `StrWhiteSpaceChar` set `parseInt` trims: WhiteSpace
(TAB, VT, FF, SP, NBSP, BOM and the Unicode space separators) and
LineTerminator (LF, CR, LS, PS). -/
def isJsWhitespace (c : Char) : Bool :=
  let n := c.toNat
  n == 0x9 || n == 0xA || n == 0xB || n == 0xC || n == 0xD || n == 0x20 ||
    n == 0xA0 || n == 0x1680 || (0x2000 ≤ n && n ≤ 0x200A) || n == 0x2028 ||
    n == 0x2029 || n == 0x202F || n == 0x205F || n == 0x3000 || n == 0xFEFF

/-- Value of one digit in radix 10 or 16 (`parseInt` accepts `a-f`/`A-F` only
after a `0x` prefix). -/
def digitValAt (radix : Nat) (c : Char) : Option Nat :=
  if c.isDigit then some (c.toNat - '0'.toNat)
  else if radix == 16 && ('a' ≤ c && c ≤ 'f') then some (c.toNat - 'a'.toNat + 10)
  else if radix == 16 && ('A' ≤ c && c ≤ 'F') then some (c.toNat - 'A'.toNat + 10)
  else none

/-- Longest leading run of digits of the radix. -/
def leadingRun (radix : Nat) (s : Chars) : Chars :=
  s.takeWhile (fun c => (digitValAt radix c).isSome)

/-- Mathematical integer value of a digit run. -/
def runValue (radix : Nat) (ds : Chars) : Nat :=
  ds.foldl (fun acc c => acc * radix + ((digitValAt radix c).getD 0)) 0

/-- Fuel-bounded binary length: `bitLenAux fuel n` is the number of binary
digits of `n` whenever that number is at most `fuel`.  Used instead of
`Nat.log2` (whose well-founded recursion does not evaluate by kernel
reduction). -/
def bitLenAux : Nat → Nat → Nat
  | 0, _ => 0
  | fuel+1, n => if n == 0 then 0 else bitLenAux fuel (n / 2) + 1

/-- Binary length of `n` (`log2 n + 1` for `n ≥ 1`), exact for `n < 2^1200`;
beyond that every double computation below has already overflowed to
Infinity, so the clamp is unobservable. -/
def bitLen (n : Nat) : Nat := bitLenAux 1200 n

/-- Round a mathematical integer to the nearest float64 (round-half-even):
exact below `2^53`, otherwise the 53-bit significand is rounded; `none` is
overflow to `Infinity` (a rounded value of `2^1024` or more).  The result of
rounding an integer `≥ 1` is itself an integer, so the double is carried
exactly as a `Nat`. -/
def roundNatToDouble (n : Nat) : Option Nat :=
  if n < 2 ^ 53 then some n
  else
    let k := bitLen n - 53
    let q := n >>> k
    let r := n - (q <<< k)
    let half := 1 <<< (k - 1)
    let q2 := if half < r || (r == half && q % 2 == 1) then q + 1 else q
    let m := q2 <<< k
    if 1 <<< 1024 ≤ m then none else some m

/-- One digit run of `parseInt`: longest leading run in the radix, `NaN` when
empty, otherwise the value rounded to float64 (`none` also covers the
`Infinity` overflow, which fails `Number.isInteger` exactly like `NaN`). -/
def parseRun (radix : Nat) (s : Chars) : Option Nat :=
  let ds := leadingRun radix s
  if ds.isEmpty then none else roundNatToDouble (runValue radix ds)

/-- `parseInt` after the optional sign: a `0x`/`0X` prefix switches to
radix 16, anything else parses in radix 10. -/
def jsParseIntMag (s : Chars) : Option Nat :=
  match s with
  | c0 :: c1 :: rest =>
    if c0 == '0' && (c1 == 'x' || c1 == 'X') then parseRun 16 rest
    else parseRun 10 (c0 :: c1 :: rest)
  | _ => parseRun 10 s

/-- JS `parseInt(s)` (radix argument omitted, as at every call site of the
source): trim leading whitespace, optional `+`/`-` sign, radix inference,
digit run, float64 rounding.  `some i` is the exact integral value of the
resulting double; `none` is a result failing `Number.isInteger` (`NaN` or
`±Infinity`).  (ECMAScript permits approximating radix-10 runs beyond 20
significant digits; engines round correctly, which is what is modelled.) -/
def jsParseInt (s : Chars) : Option Int :=
  let t := s.dropWhile isJsWhitespace
  match t with
  | [] => none
  | c :: rest =>
    if c == '-' then (jsParseIntMag rest).map (fun n => -(n : Int))
    else if c == '+' then (jsParseIntMag rest).map (fun n => (n : Int))
    else (jsParseIntMag (c :: rest)).map (fun n => (n : Int))

/-- The decimal integer `Number::toString(10)` displays for a non-negative
integral double `m`: the shortest decimal rounding back to `m` — `m` itself
below `2^53`; above, the multiple of the largest feasible power of ten inside
`m`'s rounding interval (half-ulp each side, asymmetric at a binade bottom,
endpoints included iff the significand is even), nearest to `m`, ties to the
even significant part (the ECMAScript note leaves that last choice to the
implementation). -/
def shortestDecimalFor (m : Nat) : Nat :=
  if m < 2 ^ 53 then m
  else
    let k := bitLen m - 53
    let q := m >>> k
    let inc := q % 2 == 0
    let a2 := 2 * m - (if q == 2 ^ 52 then 1 <<< (k - 1) else 1 <<< k)
    let b2 := 2 * m + (1 <<< k)
    let xmin := if inc then (a2 + 1) / 2 else a2 / 2 + 1
    let xmax := if inc then b2 / 2 else (b2 - 1) / 2
    let e := ((List.range 340).filter (fun e => xmin ≤ (xmax / 10 ^ e) * 10 ^ e)).getLastD 0
    let p := 10 ^ e
    let lowc := (m / p) * p
    let highc := lowc + p
    if xmin ≤ lowc && highc ≤ xmax then
      if m - lowc < highc - m then lowc
      else if highc - m < m - lowc then highc
      else if (lowc / p) % 2 == 0 then lowc else highc
    else if xmin ≤ lowc then lowc
    else if highc ≤ xmax then highc
    else m

def stripTrailingZeros (ds : Chars) : Chars :=
  (ds.reverse.dropWhile (fun c => c == '0')).reverse

/-- The `s₁.s₂…e+n` exponential form `Number::toString(10)` uses from `1e21`
on. -/
def expFormat (x : Nat) : Chars :=
  let ds := Nat.toDigits 10 x
  match stripTrailingZeros ds with
  | [] => str "0"
  | [d1] => [d1] ++ str "e+" ++ Nat.toDigits 10 (ds.length - 1)
  | d1 :: srest => [d1] ++ ['.'] ++ srest ++ str "e+" ++ Nat.toDigits 10 (ds.length - 1)

/-- `Number::toString(10)` for a non-negative integral double: plain decimal
digits of the shortest round-tripping integer below `1e21`, exponential
notation from `1e21` on. -/
def jsNatToString (m : Nat) : Chars :=
  let x := shortestDecimalFor m
  if x < 10 ^ 21 then Nat.toDigits 10 x else expFormat x

/-- JS `Number.prototype.toString()` for the integral doubles of this model. -/
def jsIntToString (i : Int) : Chars :=
  if i < 0 then '-' :: jsNatToString i.natAbs else jsNatToString i.toNat

/-- `version.toString()` where `version` came out of `parseBuildKey`.  `none`
renders as `"NaN"`; the source renders an `Infinity` parse as `"Infinity"` —
both name build directories this service never creates, and every route using
the rendering only probes the filesystem with it, so the conflation is
unobservable through the API. -/
def jsNumOptToString : Option Int → Chars
  | none => str "NaN"
  | some i => jsIntToString i

/-- Source `createBuildKey(env, version)`: formats `` `${env}-${version.toString()}` ``.
The `version` argument is already rendered (the source accepts `number | string`). -/
def createBuildKey (env : Chars) (version : Chars) : Chars :=
  env ++ '-' :: version

/-- Source `parseBuildKey(key)`: `const [env, version] = key.split('-')`,
`version` going through `parseInt`. -/
def parseBuildKey (key : Chars) : Chars × Option Int :=
  let segs := jsSplitOn '-' key
  (segs.headD [],
    match segs with
    | _ :: v :: _ => jsParseInt v
    | _ => none)

/-- `createBuildKey` composed with `parseBuildKey`, the round trip of the
spec's testable property (a `NaN` version renders as `"NaN"`, mirroring the
template-string interpolation in the source). -/
def roundTripBuildKey (s : Chars) : Chars :=
  createBuildKey (parseBuildKey s).1 (jsNumOptToString (parseBuildKey s).2)

/-!
JS `Array.prototype.sort` with a numeric comparator is a stable sort; it is
embedded as a stable insertion sort parameterised by `le y x`, "y may stay
before x".
-/

def insertLe (le : α → α → Bool) (x : α) : List α → List α
  | [] => [x]
  | y :: ys => if le y x then y :: insertLe le x ys else x :: y :: ys

def sortLe (le : α → α → Bool) (l : List α) : List α :=
  l.foldl (fun acc x => insertLe le x acc) []

/-- First index satisfying a predicate (`Array.prototype.findIndex` /
`find` + `indexOf` in the source). -/
def findFirstIdx (p : α → Bool) : List α → Option Nat
  | [] => none
  | x :: xs => if p x then some 0 else (findFirstIdx p xs).map (· + 1)

/-!
State model.  One game is modelled: its environment build directories
(`envs`) and the `prod/<platform>` release directory for one platform
(`platform`).  `releases.json` is `PlatformDir.ledger` (`none` = file absent);
the other files of the platform directory are `PlatformDir.files`, each with
the parsed contents of its `files_*.json` manifest when it is one; the
`index.html` symlink is `PlatformDir.indexTarget` (`none` = absent).
-/

structure BuildInfo where
  version : Int
  builtAt : Int
  builtAtReadable : Chars
  gitCommitHash : Chars
  gitBranch : Chars
deriving DecidableEq, Repr, Inhabited

structure ReleaseInfo where
  key : Chars
  index : Chars
  files : Chars
  releasedAt : Nat
  builtAt : Chars
  gitBranch : Chars
  gitCommit : Chars
deriving DecidableEq, Repr, Inhabited

structure Releases where
  current : Option Chars
  builds : List ReleaseInfo
deriving DecidableEq, Repr, Inhabited

structure PFile where
  name : Chars
  manifest : List Chars
deriving DecidableEq, Repr, Inhabited

structure PlatformDir where
  ledger : Option Releases
  files : List PFile
  indexTarget : Option Chars
deriving DecidableEq, Repr, Inhabited

/-- One entry of an environment directory: a build directory (or stray file)
together with everything the routes inspect about it. -/
structure EnvEntry where
  name : Chars
  isDir : Bool
  isEmptyEnt : Bool
  hasBuildInfo : Bool
  hasIndexHtml : Bool
  buildInfo : BuildInfo
  fileNames : List Chars
deriving DecidableEq, Repr, Inhabited

structure GameDir where
  envs : List (Chars × List EnvEntry)
  platform : PlatformDir
deriving DecidableEq, Repr, Inhabited

def lookupEnv (g : GameDir) (name : Chars) : Option (List EnvEntry) :=
  (g.envs.find? (fun p => p.1 == name)).map (fun p => p.2)

/-- Source `isEmptyDir`: a directory with zero entries. -/
def isEmptyDir (e : EnvEntry) : Bool := e.isDir && e.isEmptyEnt

def indexFileName (key : Chars) : Chars := str "index_" ++ key ++ str ".html"

def manifestFileName (key : Chars) : Chars := str "files_" ++ key ++ str ".json"

/-- Comparator of `removeOldReleases` / `getPreviousReleaseBuildKey`:
`(a, b) => fromReadableDateString(b.releasedAt) - fromReadableDateString(a.releasedAt)`
(newest first); `relDesc y x` says `y` may stay before `x`. -/
def relDesc (y x : ReleaseInfo) : Bool := decide (x.releasedAt ≤ y.releasedAt)

def sortByReleasedAtDesc (l : List ReleaseInfo) : List ReleaseInfo := sortLe relDesc l

/-- Source `createNewRelease` (`now` is `Date.now()`, whose readable rendering
is modelled by the timestamp itself). -/
def createNewRelease (buildKey : Chars) (buildInfo : BuildInfo) (now : Nat) : ReleaseInfo :=
  { key := buildKey
    index := indexFileName buildKey
    files := manifestFileName buildKey
    releasedAt := now
    builtAt := buildInfo.builtAtReadable
    gitBranch := buildInfo.gitBranch
    gitCommit := buildInfo.gitCommitHash }

/-- Source `updateIndexHtmlSymlink`: remove `index.html` and relink it to
`./index_<key>.html`. -/
def updateIndexHtmlSymlink (d : PlatformDir) (buildKey : Chars) : PlatformDir :=
  { d with indexTarget := some (str "./" ++ indexFileName buildKey) }

/-- The `readJSONSync` loop of `removeOldReleases` over the kept releases'
manifests; `none` models the exception thrown on a missing manifest file. -/
def readAllManifests (fs : List PFile) : List ReleaseInfo → Option (List (List Chars))
  | [] => some []
  | b :: bs =>
    match (fs.find? (fun f => f.name == b.files)).map (fun f => f.manifest) with
    | none => none
    | some m => (readAllManifests fs bs).map (fun ms => m :: ms)

/-- Source `removeOldReleases(releasesJsonPath, {buildsNumToKeep})`: sorts the
ledger's builds newest-first, keeps the first `keep`, and — when anything is
to be removed — deletes every file of the platform directory not listed in a
kept release's manifest and different from `index.html`/`releases.json`, then
persists the truncated ledger.  `none` models a thrown exception
(`releases.json` or a kept manifest missing), which in the source aborts the
operation before any deletion. -/
def removeOldReleases (d : PlatformDir) (keep : Nat) : Option (PlatformDir × List Chars) :=
  match d.ledger with
  | none => none
  | some releases =>
    let builds := sortByReleasedAtDesc releases.builds
    let buildsToKeep := builds.take keep
    let buildsToRemove := builds.drop keep
    if buildsToRemove.isEmpty then some (d, [])
    else
      match readAllManifests d.files buildsToKeep with
      | none => none
      | some manifests =>
        let filesToKeep := manifests.flatten ++ [str "index.html", str "releases.json"]
        let newFiles := d.files.filter (fun f => filesToKeep.contains f.name)
        some ({ d with ledger := some { releases with builds := buildsToKeep }
                       files := newFiles },
          buildsToRemove.map (fun b => b.key))

/-- Source `getPreviousReleaseBuildKey`: the entry right after the current
release once builds are sorted by `releasedAt`, newest first. -/
def getPreviousReleaseBuildKey (d : PlatformDir) : Option Chars :=
  match d.ledger with
  | none => none
  | some releases =>
    let sorted := sortByReleasedAtDesc releases.builds
    match findFirstIdx (fun item => releases.current == some item.key) sorted with
    | none => none
    | some i => sorted[i + 1]?.map (fun b => b.key)

inductive RollbackErr where
  | noPrevious
  | invalidKey (key : Chars)
  | ledgerMissing
  | alreadyCurrent (key : Chars)
  | notFound (key : Chars)
deriving DecidableEq, Repr

/-- Route `/rollback/:game/:platform/:buildKey?`.  `ledgerMissing` models the
exception of `readJsonSync` on an absent `releases.json` (only reachable with
an explicit `buildKey`). -/
def rollback (g : GameDir) (buildKeyParam : Option Chars) :
    GameDir × Except RollbackErr ReleaseInfo :=
  match buildKeyParam.orElse (fun _ => getPreviousReleaseBuildKey g.platform) with
  | none => (g, .error .noPrevious)
  | some buildKey =>
    if isBuildKey buildKey = false then (g, .error (.invalidKey buildKey))
    else
      match g.platform.ledger with
      | none => (g, .error .ledgerMissing)
      | some releases =>
        if releases.current == some buildKey then (g, .error (.alreadyCurrent buildKey))
        else
          match releases.builds.find? (fun item => item.key == buildKey) with
          | none => (g, .error (.notFound buildKey))
          | some release =>
            let releases2 := { releases with current := some buildKey }
            let p1 := { g.platform with ledger := some releases2 }
            let p2 := updateIndexHtmlSymlink p1 buildKey
            ({ g with platform := p2 }, .ok release)

/-- Comparator of `getLatestBuildKey`: `(a, b) => parseInt(b) - parseInt(a)`. -/
def nameDesc (y x : Chars) : Bool :=
  decide (((jsParseInt x).getD 0) ≤ ((jsParseInt y).getD 0))

/-- Source `getLatestBuildKey(gameDir, env)`: largest numeric directory of the
environment, turned into a key with the raw directory name as version.  (On a
missing environment directory the source's `readdirSync` would throw; that is
modelled as "no latest build" — no claim exercises that path.) -/
def getLatestBuildKey (g : GameDir) (envName : Chars) : Option Chars :=
  match lookupEnv g envName with
  | none => none
  | some es =>
    let builds :=
      sortLe nameDesc ((es.filter (fun e => (jsParseInt e.name).isSome && e.isDir)).map
        (fun e => e.name))
    builds.head?.map (fun b => createBuildKey envName b)

inductive PublishErr where
  | noBuild
  | invalidKey (key : Chars)
  | alreadyReleased (key : Chars) (releasedAt : Nat)
  | buildMissing (key : Chars)
  | noBuildInfo (key : Chars)
  | noIndexHtml (key : Chars)
  | pruneFailed
deriving DecidableEq, Repr

/-- Files of the staged temp copy before its manifest is written: the source
build's files without `build_info.json` and with `index.html` renamed to
`index_<key>.html`. -/
def stagedFileNames (e : EnvEntry) (buildKey : Chars) : List Chars :=
  (e.fileNames.filter (fun n => !(n == str "build_info.json"))).map
    (fun n => if n == str "index.html" then indexFileName buildKey else n)

/-- Contents of `files_<key>.json`: the manifest's own name followed by every
staged file. -/
def publishManifest (e : EnvEntry) (buildKey : Chars) : List Chars :=
  manifestFileName buildKey :: stagedFileNames e buildKey

def upsertFile (fs : List PFile) (f : PFile) : List PFile :=
  if fs.any (fun x => x.name == f.name) then
    fs.map (fun x => if x.name == f.name then f else x)
  else fs ++ [f]

/-- `fse.copySync(destDirTemp, destDir)`: merge, overwriting files of the same
name and keeping unrelated ones. -/
def mergeFiles (fs : List PFile) (incoming : List PFile) : List PFile :=
  incoming.foldl upsertFile fs

/-- The ledger `/publish` starts from: the stored `releases.json`, or
`{current: '', builds: []}` when the file is absent. -/
def priorLedger (g : GameDir) : Releases :=
  (g.platform.ledger).getD { current := some [], builds := [] }

/-- Route `/publish/:game/:platform/:buildKey?`, in the mutation order of the
source: validate key, check the ledger for a duplicate, check the source build
directory, stage (pure), copy into the platform directory, write the updated
ledger, prune with keep-count 5, relink `index.html`. -/
def publish (g : GameDir) (buildKeyParam : Option Chars) (now : Nat) :
    GameDir × Except PublishErr ReleaseInfo :=
  match buildKeyParam.orElse (fun _ =>
      (getLatestBuildKey g (str "master")).orElse (fun _ =>
        getLatestBuildKey g (str "main"))) with
  | none => (g, .error .noBuild)
  | some buildKey =>
    if isBuildKey buildKey = false then (g, .error (.invalidKey buildKey))
    else
      let releases : Releases := priorLedger g
      match releases.builds.find? (fun item => item.key == buildKey) with
      | some existing => (g, .error (.alreadyReleased buildKey existing.releasedAt))
      | none =>
        match lookupEnv g (parseBuildKey buildKey).1 with
        | none => (g, .error (.buildMissing buildKey))
        | some es =>
          match es.find? (fun e => e.name == jsNumOptToString (parseBuildKey buildKey).2) with
          | none => (g, .error (.buildMissing buildKey))
          | some e =>
            if e.hasBuildInfo = false then (g, .error (.noBuildInfo buildKey))
            else if e.hasIndexHtml = false then (g, .error (.noIndexHtml buildKey))
            else
              let stagedFiles : List PFile :=
                ((stagedFileNames e buildKey).filter
                    (fun n => !(n == manifestFileName buildKey))).map
                  (fun n => { name := n, manifest := [] })
                ++ [{ name := manifestFileName buildKey, manifest := publishManifest e buildKey }]
              let p1 := { g.platform with files := mergeFiles g.platform.files stagedFiles }
              let newRelease := createNewRelease buildKey e.buildInfo now
              let releases2 := { releases with
                current := some newRelease.key
                builds := newRelease :: releases.builds }
              let p2 := { p1 with ledger := some releases2 }
              match removeOldReleases p2 5 with
              | none => ({ g with platform := p2 }, .error .pruneFailed)
              | some (p3, _) =>
                let p4 := updateIndexHtmlSymlink p3 newRelease.key
                ({ g with platform := p4 }, .ok newRelease)

/-- Comparator of `/preDeploy`'s `existingBuilds.sort((a, b) => a - b)`. -/
def intAsc (y x : Int) : Bool := decide (y ≤ x)

/-- `/preDeploy`'s listing: entries that are not empty directories, parsed as
integers, non-integers dropped, sorted ascending. -/
def nonEmptyVersions (es : List EnvEntry) : List Int :=
  sortLe intAsc (((es.filter (fun e => !(isEmptyDir e))).map
    (fun e => jsParseInt e.name)).filterMap id)

def emptyBuildInfo : BuildInfo :=
  { version := 0, builtAt := 0, builtAtReadable := [], gitCommitHash := [], gitBranch := [] }

/-- A freshly created, still empty build directory. -/
def emptyEntry (name : Chars) : EnvEntry :=
  { name := name, isDir := true, isEmptyEnt := true, hasBuildInfo := false
    hasIndexHtml := false, buildInfo := emptyBuildInfo, fileNames := [] }

def upsertEntry (es : List EnvEntry) (e : EnvEntry) : List EnvEntry :=
  if es.any (fun x => x.name == e.name) then
    es.map (fun x => if x.name == e.name then e else x)
  else es ++ [e]

def setEnvAux (name : Chars) (es : List EnvEntry) :
    List (Chars × List EnvEntry) → List (Chars × List EnvEntry)
  | [] => [(name, es)]
  | p :: ps => if p.1 == name then (name, es) :: ps else p :: setEnvAux name es ps

/-- Replace (or create, as `fse.ensureDirSync`) the environment directory. -/
def setEnv (g : GameDir) (name : Chars) (es : List EnvEntry) : GameDir :=
  { g with envs := setEnvAux name es g.envs }

structure PreDeployOut where
  newBuildVersion : Int
  builds : List Int
deriving DecidableEq, Repr

inductive PreDeployErr where
  | invalidVersion
  | duplicateVersion (version : Int) (suggested : Int) (builds : List Int)
  | cloneMissing
deriving DecidableEq, Repr

/-- Route `/preDeploy/:game/:env/:version`: validate the version with
`parseInt`, ensure the environment directory, list existing non-empty builds,
reject duplicates suggesting `max + 1`, otherwise create the build directory,
cloning the highest existing build when there is one (`cloneMissing` models
the `copySync` exception when the highest listed version has no directory
whose name prints back to it; `if (lastBuildVersion)` makes a last version of
`0` falsy, yielding an empty directory instead of a clone). -/
def preDeploy (g : GameDir) (envName : Chars) (versionStr : Chars) :
    GameDir × Except PreDeployErr PreDeployOut :=
  match jsParseInt versionStr with
  | none => (g, .error .invalidVersion)
  | some build =>
    if build ≤ 0 then (g, .error .invalidVersion)
    else
      let es0 := (lookupEnv g envName).getD []
      let g1 := setEnv g envName es0
      let existing := nonEmptyVersions es0
      if existing.contains build then
        (g1, .error (.duplicateVersion build ((existing.getLastD 0) + 1) existing))
      else
        match existing.getLast? with
        | none =>
          (setEnv g1 envName (upsertEntry es0 (emptyEntry (jsIntToString build))),
            .ok { newBuildVersion := build, builds := existing })
        | some last =>
          if last == 0 then
            (setEnv g1 envName (upsertEntry es0 (emptyEntry (jsIntToString build))),
              .ok { newBuildVersion := build, builds := existing })
          else
            match es0.find? (fun e => e.name == jsIntToString last) with
            | none => (g1, .error .cloneMissing)
            | some src =>
              (setEnv g1 envName (upsertEntry es0 { src with name := jsIntToString build }),
                .ok { newBuildVersion := build, builds := existing })

/-- Sample release `a-<i>` published at time `i`, with its conventional asset
names. -/
def oldRelease (i : Nat) : ReleaseInfo :=
  { key := str "a-" ++ Nat.toDigits 10 i
    index := indexFileName (str "a-" ++ Nat.toDigits 10 i)
    files := manifestFileName (str "a-" ++ Nat.toDigits 10 i)
    releasedAt := i
    builtAt := str "bt"
    gitBranch := str "br"
    gitCommit := str "gc" }

/-- A ledger already holding five releases `a-5 … a-1`, newest first. -/
def oldLedger5 : Releases :=
  { current := some (oldRelease 5).key
    builds := [oldRelease 5, oldRelease 4, oldRelease 3, oldRelease 2, oldRelease 1] }

def manifestFileFor (i : Nat) : PFile :=
  { name := (oldRelease i).files, manifest := [(oldRelease i).files, (oldRelease i).index] }

def indexFileFor (i : Nat) : PFile :=
  { name := (oldRelease i).index, manifest := [] }

def sampleBuildInfo : BuildInfo :=
  { version := 6, builtAt := 60, builtAtReadable := str "2020-01-01 00:00:06"
    gitCommitHash := str "gc6", gitBranch := str "a" }

/-- Build directory `6` of environment `a`, deployable. -/
def sampleEntry6 : EnvEntry :=
  { name := str "6", isDir := true, isEmptyEnt := false, hasBuildInfo := true
    hasIndexHtml := true, buildInfo := sampleBuildInfo
    fileNames := [str "index.html", str "build_info.json", str "game.js"] }

/-- A game with deployable build `a/6` and a platform directory already
holding the five releases of `oldLedger5` together with their assets. -/
def fullGame : GameDir :=
  { envs := [(str "a", [sampleEntry6])]
    platform :=
      { ledger := some oldLedger5
        files := [manifestFileFor 5, indexFileFor 5, manifestFileFor 4, indexFileFor 4,
                  manifestFileFor 3, indexFileFor 3, manifestFileFor 2, indexFileFor 2,
                  manifestFileFor 1, indexFileFor 1]
        indexTarget := some (str "./" ++ indexFileName (str "a-5")) } }

/-- Contents of the manifest file a release points at, as `removeOldReleases`
reads it (`[]` standing in where the read would throw — the lemmas only use
this where the file exists). -/
def manifestOf (fs : List PFile) (b : ReleaseInfo) : List Chars :=
  ((fs.find? (fun f => f.name == b.files)).map (fun f => f.manifest)).getD []

/-- The newest `keep` releases by `releasedAt`, descending — what
`removeOldReleases` keeps. -/
def keptBuilds (r : Releases) (keep : Nat) : List ReleaseInfo :=
  (sortByReleasedAtDesc r.builds).take keep

/-- The releases `removeOldReleases` drops. -/
def removedBuilds (r : Releases) (keep : Nat) : List ReleaseInfo :=
  (sortByReleasedAtDesc r.builds).drop keep

/-- The keep-set of file names `removeOldReleases` protects: every file listed
in a kept release's manifest, plus `index.html` and `releases.json`. -/
def keepNames (d : PlatformDir) (r : Releases) (keep : Nat) : List Chars :=
  ((keptBuilds r keep).map (fun b => manifestOf d.files b)).flatten
    ++ [str "index.html", str "releases.json"]

/-- A platform directory holding three pruned-style releases `a-3 … a-1` with
all their assets on disk. -/
def prunedLedger3 : Releases :=
  { current := some (oldRelease 3).key
    builds := [oldRelease 3, oldRelease 2, oldRelease 1] }

def pruneSampleDir : PlatformDir :=
  { ledger := some prunedLedger3
    files := [manifestFileFor 3, indexFileFor 3, manifestFileFor 2, indexFileFor 2,
              manifestFileFor 1, indexFileFor 1]
    indexTarget := some (str "./" ++ indexFileName (str "a-3")) }

/-- The spec's ledger invariant: whenever `builds` is non-empty and `current`
is non-null, `current` equals the key of some recorded build. -/
def ledgerInv (r : Releases) : Prop :=
  ∀ c, r.builds ≠ [] → r.current = some c → ∃ b ∈ r.builds, b.key = c

/-- Every persisted `releases.json` of the platform satisfies the ledger
invariant. -/
def platformInv (p : PlatformDir) : Prop :=
  ∀ r, p.ledger = some r → ledgerInv r

/-- Iterated default rollback (no `buildKey` supplied), keeping the state of
each step. -/
def rollbackIter (g : GameDir) : Nat → GameDir
  | 0 => g
  | n + 1 => (rollback (rollbackIter g n) none).1

/-- A game state whose platform ledger holds `builds` with `cur` as the
current release key. -/
def rollbackState (envs : List (Chars × List EnvEntry)) (fs : List PFile)
    (it : Option Chars) (builds : List ReleaseInfo) (cur : Chars) : GameDir :=
  ⟨envs, ⟨some ⟨some cur, builds⟩, fs, it⟩⟩

/-- Where an accepted version value surfaces in a `/preDeploy` result: in the
success body as `newBuildVersion`, or in the duplicate-version conflict body
(a `cloneMissing` exception happens after acceptance; an `invalidVersion`
rejection means the version was not accepted). -/
def usesVersion (r : Except PreDeployErr PreDeployOut) (v : Int) : Prop :=
  match r with
  | .ok out => out.newBuildVersion = v
  | .error (.duplicateVersion ver _ _) => ver = v
  | .error .cloneMissing => True
  | .error .invalidVersion => False

-- Lemmas.

theorem splitLastDash_eq_append {s a d : Chars} (h : splitLastDash s = some (a, d)) :
    s = a ++ '-' :: d := by
  induction s generalizing a d with
  | nil => simp [splitLastDash] at h
  | cons c rest ih =>
    simp only [splitLastDash] at h
    cases hr : splitLastDash rest with
    | some p =>
      obtain ⟨a', d'⟩ := p
      rw [hr] at h
      simp only [Option.some.injEq, Prod.mk.injEq] at h
      obtain ⟨h1, h2⟩ := h
      subst h2
      cases h1
      simp [ih hr]
    | none =>
      rw [hr] at h
      by_cases hc : c = '-'
      · subst hc
        simp at h
        obtain ⟨h1, h2⟩ := h
        subst h1; subst h2
        simp
      · simp [hc] at h

theorem splitLastDash_of_no_dash {s : Chars} (h : '-' ∉ s) : splitLastDash s = none := by
  induction s with
  | nil => rfl
  | cons c rest ih =>
    simp only [List.mem_cons, not_or] at h
    have hc : ¬ c = '-' := fun hc => h.1 hc.symm
    simp [splitLastDash, ih h.2, hc]

theorem splitLastDash_append {a d : Chars} (h : '-' ∉ d) :
    splitLastDash (a ++ '-' :: d) = some (a, d) := by
  induction a with
  | nil => simp [splitLastDash, splitLastDash_of_no_dash h]
  | cons c a' ih => simp [splitLastDash, ih]

theorem no_dash_of_all_digits {d : Chars} (h : d.all Char.isDigit = true) : '-' ∉ d := by
  intro hmem
  have := List.all_eq_true.mp h _ hmem
  simp [Char.isDigit] at this

theorem isBuildKey_iff_matches (s : Chars) :
    isBuildKey s = true ↔ MatchesBuildKeyRegex s := by
  constructor
  · intro h
    unfold isBuildKey at h
    cases hs : splitLastDash s with
    | none => rw [hs] at h; simp at h
    | some p =>
      obtain ⟨a, d⟩ := p
      rw [hs] at h
      simp only [Bool.and_eq_true, Bool.not_eq_true'] at h
      obtain ⟨⟨⟨ha, hd⟩, hac⟩, hdc⟩ := h
      exact ⟨a, d, splitLastDash_eq_append hs,
        by simpa [List.isEmpty_iff] using ha,
        by simpa [List.isEmpty_iff] using hd, hac, hdc⟩
  · rintro ⟨a, d, rfl, ha, hd, hac, hdc⟩
    unfold isBuildKey
    rw [splitLastDash_append (no_dash_of_all_digits hdc)]
    simp [List.isEmpty_iff, ha, hd, hac, hdc]

theorem leadingDigits_of_all_digits {d : Chars} (h : d.all Char.isDigit = true) :
    leadingDigits d = d := by
  induction d with
  | nil => rfl
  | cons c rest ih =>
    simp only [List.all_cons, Bool.and_eq_true] at h
    simp [leadingDigits, h.1, ih h.2]

theorem isJsWhitespace_of_digit {c : Char} (h : c.isDigit = true) :
    isJsWhitespace c = false := by
  have hr : 48 ≤ c.toNat ∧ c.toNat ≤ 57 := by simpa [Char.isDigit] using h
  simp only [isJsWhitespace, Bool.or_eq_false_iff, beq_eq_false_iff_ne, ne_eq,
    Bool.and_eq_false_iff, decide_eq_false_iff_not, not_le]
  omega

theorem digit_ne_dash {c : Char} (h : c.isDigit = true) : c ≠ '-' :=
  fun he => by subst he; exact absurd h (by decide)

theorem digit_ne_plus {c : Char} (h : c.isDigit = true) : c ≠ '+' :=
  fun he => by subst he; exact absurd h (by decide)

theorem dropWhile_ws_digit_head {c : Char} {rest : Chars} (h : c.isDigit = true) :
    (c :: rest).dropWhile isJsWhitespace = c :: rest := by
  simp [List.dropWhile, isJsWhitespace_of_digit h]

theorem digitValAt_ten_isSome (c : Char) : (digitValAt 10 c).isSome = c.isDigit := by
  cases hc : c.isDigit <;> simp [digitValAt, hc]

theorem leadingRun_ten (s : Chars) : leadingRun 10 s = leadingDigits s := by
  induction s with
  | nil => rfl
  | cons c rest ih =>
    simp only [leadingRun, digitValAt_ten_isSome] at ih
    cases hc : c.isDigit
    · simp [leadingRun, List.takeWhile_cons, digitValAt_ten_isSome, leadingDigits, hc]
    · simp [leadingRun, List.takeWhile_cons, digitValAt_ten_isSome, leadingDigits, hc, ih]

theorem runValue_ten {ds : Chars} (h : ds.all Char.isDigit = true) :
    runValue 10 ds = digitsToNat ds := by
  suffices haux : ∀ acc : Nat,
      ds.foldl (fun acc c => acc * 10 + ((digitValAt 10 c).getD 0)) acc
        = ds.foldl (fun acc c => acc * 10 + (c.toNat - '0'.toNat)) acc from haux 0
  induction ds with
  | nil => intro acc; rfl
  | cons c rest ih =>
    simp only [List.all_cons, Bool.and_eq_true] at h
    intro acc
    simp only [List.foldl_cons,
      show digitValAt 10 c = some (c.toNat - '0'.toNat) by simp [digitValAt, h.1],
      Option.getD_some]
    exact ih h.2 (acc * 10 + (c.toNat - '0'.toNat))

theorem leadingDigits_all (s : Chars) : (leadingDigits s).all Char.isDigit = true := by
  induction s with
  | nil => rfl
  | cons c rest ih =>
    simp only [leadingDigits]
    cases hc : c.isDigit
    · rfl
    · simp [hc, ih]

theorem roundNatToDouble_small {n : Nat} (h : n < 2 ^ 53) : roundNatToDouble n = some n := by
  unfold roundNatToDouble
  rw [if_pos h]

/-- `parseInt` on a string whose first character is a decimal digit and which
does not begin with a `0x`/`0X` hex prefix: the float64 rounding of the
leading decimal digit run. -/
theorem jsParseInt_digit_head {c : Char} {rest : Chars} (hc : c.isDigit = true)
    (hnx : ∀ c1 rest2, rest = c1 :: rest2 → c = '0' → c1 ≠ 'x' ∧ c1 ≠ 'X') :
    jsParseInt (c :: rest)
      = (roundNatToDouble (digitsToNat (leadingDigits (c :: rest)))).map
          (fun n => ((n : Nat) : Int)) := by
  have hmag : jsParseIntMag (c :: rest) = parseRun 10 (c :: rest) := by
    cases rest with
    | nil => rfl
    | cons c1 rest2 =>
      have hguard : (c == '0' && (c1 == 'x' || c1 == 'X')) = false := by
        by_cases hc0 : c = '0'
        · obtain ⟨hx, hX⟩ := hnx c1 rest2 rfl hc0
          simp [hx, hX]
        · simp [hc0]
      simp only [jsParseIntMag, hguard, Bool.false_eq_true, if_false]
  have hrun : parseRun 10 (c :: rest)
      = roundNatToDouble (digitsToNat (leadingDigits (c :: rest))) := by
    unfold parseRun
    rw [leadingRun_ten]
    rw [if_neg (by simp [leadingDigits, hc])]
    rw [runValue_ten (leadingDigits_all _)]
  simp only [jsParseInt, dropWhile_ws_digit_head hc]
  rw [if_neg (by simp [digit_ne_dash hc])]
  rw [if_neg (by simp [digit_ne_plus hc])]
  rw [hmag, hrun]
  cases roundNatToDouble (digitsToNat (leadingDigits (c :: rest))) <;> rfl

theorem jsParseInt_of_digits {d : Chars} (hne : d ≠ []) (h : d.all Char.isDigit = true)
    (hlt : digitsToNat d < 2 ^ 53) :
    jsParseInt d = some ((digitsToNat d : Int)) := by
  cases d with
  | nil => exact absurd rfl hne
  | cons c rest =>
    have hc : c.isDigit = true := by
      simp only [List.all_cons, Bool.and_eq_true] at h
      exact h.1
    have hnx : ∀ c1 rest2, rest = c1 :: rest2 → c = '0' → c1 ≠ 'x' ∧ c1 ≠ 'X' := by
      intro c1 rest2 hr _
      have hc1 : c1.isDigit = true := by
        subst hr
        simp only [List.all_cons, Bool.and_eq_true] at h
        exact h.2.1
      exact ⟨fun he => by subst he; exact absurd hc1 (by decide),
        fun he => by subst he; exact absurd hc1 (by decide)⟩
    rw [jsParseInt_digit_head hc hnx, leadingDigits_of_all_digits h,
      roundNatToDouble_small hlt]
    rfl

theorem jsSplitOn_ne_nil (sep : Char) (s : Chars) : jsSplitOn sep s ≠ [] := by
  cases s with
  | nil => simp [jsSplitOn]
  | cons c rest =>
    unfold jsSplitOn
    by_cases hc : (c == sep) = true
    · rw [if_pos hc]
      exact List.cons_ne_nil _ _
    · rw [if_neg hc]
      cases jsSplitOn sep rest <;> exact List.cons_ne_nil _ _

theorem jsSplitOn_of_no_sep {sep : Char} {s : Chars} (h : sep ∉ s) :
    jsSplitOn sep s = [s] := by
  induction s with
  | nil => rfl
  | cons c rest ih =>
    simp only [List.mem_cons, not_or] at h
    have hc : ¬ c = sep := fun hc => h.1 hc.symm
    simp [jsSplitOn, hc, ih h.2]

theorem jsSplitOn_append {sep : Char} {a d : Chars} (h : sep ∉ a) :
    jsSplitOn sep (a ++ sep :: d) = a :: jsSplitOn sep d := by
  induction a with
  | nil => simp [jsSplitOn]
  | cons c a' ih =>
    simp only [List.mem_cons, not_or] at h
    have hc : ¬ c = sep := fun hc => h.1 hc.symm
    have ih2 := ih h.2
    simp only [List.cons_append, jsSplitOn, hc, if_neg, beq_iff_eq, if_false]
    rw [List.append_eq, ih2]

theorem insertLe_length (le : α → α → Bool) (x : α) (l : List α) :
    (insertLe le x l).length = l.length + 1 := by
  induction l with
  | nil => rfl
  | cons y ys ih =>
    unfold insertLe
    by_cases h : le y x = true
    · simp [h, ih]
    · simp [h]

theorem sortLe_length (le : α → α → Bool) (l : List α) :
    (sortLe le l).length = l.length := by
  suffices h : ∀ acc : List α,
      (l.foldl (fun acc x => insertLe le x acc) acc).length = acc.length + l.length by
    simpa using h []
  induction l with
  | nil => intro acc; simp
  | cons x xs ih =>
    intro acc
    simp only [List.foldl_cons, ih, insertLe_length, List.length_cons]
    omega

theorem insertLe_mem (le : α → α → Bool) (x : α) (l : List α) (a : α) :
    a ∈ insertLe le x l ↔ a ∈ l ∨ a = x := by
  induction l with
  | nil => simp [insertLe]
  | cons y ys ih =>
    unfold insertLe
    by_cases h : le y x = true
    · rw [if_pos h]
      simp only [List.mem_cons, ih]
      tauto
    · rw [if_neg h]
      simp only [List.mem_cons]
      tauto

theorem sortLe_mem (le : α → α → Bool) (l : List α) (a : α) :
    a ∈ sortLe le l ↔ a ∈ l := by
  suffices h : ∀ acc : List α,
      (a ∈ l.foldl (fun acc x => insertLe le x acc) acc ↔ a ∈ acc ∨ a ∈ l) by
    simpa using h []
  induction l with
  | nil => intro acc; simp
  | cons x xs ih =>
    intro acc
    simp only [List.foldl_cons, ih, insertLe_mem, List.mem_cons]
    tauto

theorem insertLe_eq_append {le : α → α → Bool} {x : α} {l : List α}
    (h : ∀ y ∈ l, le y x = true) : insertLe le x l = l ++ [x] := by
  induction l with
  | nil => rfl
  | cons y ys ih =>
    have hy : le y x = true := h y (List.mem_cons_self _ _)
    simp only [insertLe, hy, if_true, List.cons_append]
    rw [ih (fun z hz => h z (List.mem_cons_of_mem _ hz))]

theorem foldl_insertLe_sorted {le : α → α → Bool} :
    ∀ (l acc : List α), l.Pairwise (fun a b => le a b = true) →
      (∀ y ∈ acc, ∀ x ∈ l, le y x = true) →
      l.foldl (fun acc x => insertLe le x acc) acc = acc ++ l := by
  intro l
  induction l with
  | nil => intro acc _ _; simp
  | cons x xs ih =>
    intro acc hp hcross
    simp only [List.foldl_cons]
    have hx : ∀ y ∈ acc, le y x = true :=
      fun y hy => hcross y hy x (List.mem_cons_self _ _)
    rw [insertLe_eq_append hx]
    rw [List.pairwise_cons] at hp
    have := ih (acc ++ [x]) hp.2 ?_
    · rw [this]; simp
    · intro y hy z hz
      rcases List.mem_append.mp hy with hy' | hy'
      · exact hcross y hy' z (List.mem_cons_of_mem _ hz)
      · simp only [List.mem_singleton] at hy'
        subst hy'
        exact hp.1 z hz

/-- A list already sorted for the comparator is left unchanged (JS stable sort). -/
theorem sortLe_eq_self {le : α → α → Bool} {l : List α}
    (h : l.Pairwise (fun a b => le a b = true)) : sortLe le l = l := by
  unfold sortLe
  rw [foldl_insertLe_sorted l [] h (by simp)]
  simp

theorem insertLe_cons_of_le {le : α → α → Bool} {x y : α} {l : List α}
    (h : le x y = true) : insertLe le y (x :: l) = x :: insertLe le y l := by
  simp [insertLe, h]

theorem foldl_insertLe_cons {le : α → α → Bool} :
    ∀ (l acc : List α) (x : α), (∀ y ∈ l, le x y = true) →
      l.foldl (fun acc z => insertLe le z acc) (x :: acc)
        = x :: l.foldl (fun acc z => insertLe le z acc) acc := by
  intro l
  induction l with
  | nil => intro acc x _; rfl
  | cons z zs ih =>
    intro acc x h
    simp only [List.foldl_cons]
    rw [insertLe_cons_of_le (h z (List.mem_cons_self _ _))]
    exact ih _ x (fun y hy => h y (List.mem_cons_of_mem _ hy))

/-- An element dominating the tail stays at the head through a stable sort. -/
theorem sortLe_cons_head {le : α → α → Bool} {x : α} {l : List α}
    (h : ∀ y ∈ l, le x y = true) : sortLe le (x :: l) = x :: sortLe le l := by
  unfold sortLe
  simp only [List.foldl_cons, insertLe]
  exact foldl_insertLe_cons l [] x h

theorem insertLe_pairwise {le : α → α → Bool}
    (htot : ∀ a b : α, le a b = true ∨ le b a = true)
    (htrans : ∀ a b c : α, le a b = true → le b c = true → le a c = true)
    {x : α} {l : List α} (h : l.Pairwise (fun a b => le a b = true)) :
    (insertLe le x l).Pairwise (fun a b => le a b = true) := by
  induction l with
  | nil => simp [insertLe]
  | cons y ys ih =>
    rw [List.pairwise_cons] at h
    unfold insertLe
    by_cases hxy : le y x = true
    · rw [if_pos hxy]
      rw [List.pairwise_cons]
      refine ⟨?_, ih h.2⟩
      intro z hz
      rcases (insertLe_mem le x ys z).mp hz with hz' | hz'
      · exact h.1 z hz'
      · subst hz'; exact hxy
    · have hxy' : le x y = true := (htot x y).resolve_right (fun hh => hxy hh)
      rw [if_neg hxy]
      rw [List.pairwise_cons]
      refine ⟨?_, List.pairwise_cons.mpr h⟩
      intro z hz
      rcases List.mem_cons.mp hz with hz' | hz'
      · subst hz'; exact hxy'
      · exact htrans x y z hxy' (h.1 z hz')

theorem sortLe_pairwise {le : α → α → Bool}
    (htot : ∀ a b : α, le a b = true ∨ le b a = true)
    (htrans : ∀ a b c : α, le a b = true → le b c = true → le a c = true)
    (l : List α) : (sortLe le l).Pairwise (fun a b => le a b = true) := by
  suffices h : ∀ acc : List α, acc.Pairwise (fun a b => le a b = true) →
      (l.foldl (fun acc x => insertLe le x acc) acc).Pairwise (fun a b => le a b = true) by
    exact h [] (by simp)
  induction l with
  | nil => intro acc hacc; simpa using hacc
  | cons x xs ih =>
    intro acc hacc
    simp only [List.foldl_cons]
    exact ih _ (insertLe_pairwise htot htrans hacc)

-- Claim C9.

/-- Claim C9: `isBuildKey(s)` returns true if and only if `s` matches the
regular expression `^[a-zA-Z0-9_-]+-\d+$`; in particular
`isBuildKey("master-11")` is true, `isBuildKey("invalid-key")` is false, and
`isBuildKey("master-")` is false. -/
theorem isBuildKey_characterization :
    (∀ s : Chars, isBuildKey s = true ↔ MatchesBuildKeyRegex s)
    ∧ isBuildKey (str "master-11") = true
    ∧ isBuildKey (str "invalid-key") = false
    ∧ isBuildKey (str "master-") = false :=
  ⟨isBuildKey_iff_matches, by decide, by decide, by decide⟩

-- Claim C1.

/-- Claim C1 is refuted: `"a-1-2"` is a valid build key (the environment part
of the regular expression admits dashes), yet `parseBuildKey` destructures
`key.split('-')` into its first two segments, so the key parses to
environment `"a"`, version `1`, and re-formatting yields `"a-1"`, not
`"a-1-2"` — and the parsed version `1` is not the final `-<digits>` suffix
`2`. -/
theorem parse_create_roundTrip_counterexample :
    isBuildKey (str "a-1-2") = true
    ∧ roundTripBuildKey (str "a-1-2") ≠ str "a-1-2"
    ∧ (parseBuildKey (str "a-1-2")).2 = some 1 := by
  decide

/-- Claim C1 (amended): for every valid BuildKey string `s` whose environment
part contains no dash, whose digit suffix is written canonically (no
redundant leading zeros, i.e. it prints back from its value) and whose
suffix value is below 2^53 (so that `parseInt`'s float64 result is exact),
parsing with `parseBuildKey` and re-formatting with `createBuildKey`
reproduces `s` exactly, and the parsed version is the integer written in
the final `-<digits>` suffix. -/
theorem parse_create_roundTrip (s a d : Chars)
    (hsplit : splitLastDash s = some (a, d))
    (hkey : isBuildKey s = true)
    (hnd : '-' ∉ a)
    (hcanon : Nat.toDigits 10 (digitsToNat d) = d)
    (hsmall : digitsToNat d < 2 ^ 53) :
    roundTripBuildKey s = s ∧ (parseBuildKey s).2 = some ((digitsToNat d : Int)) := by
  have hs : s = a ++ '-' :: d := splitLastDash_eq_append hsplit
  unfold isBuildKey at hkey
  rw [hsplit] at hkey
  simp only [Bool.and_eq_true, Bool.not_eq_true'] at hkey
  obtain ⟨⟨⟨_, hd⟩, _⟩, hdc⟩ := hkey
  have hdne : d ≠ [] := by simpa [List.isEmpty_iff] using hd
  have hsplit2 : jsSplitOn '-' s = [a, d] := by
    rw [hs, jsSplitOn_append hnd, jsSplitOn_of_no_sep (no_dash_of_all_digits hdc)]
  have hparse : parseBuildKey s = (a, some ((digitsToNat d : Int))) := by
    unfold parseBuildKey
    rw [hsplit2]
    simp [jsParseInt_of_digits hdne hdc hsmall]
  refine ⟨?_, by rw [hparse]⟩
  unfold roundTripBuildKey
  rw [hparse]
  simp only [jsNumOptToString, jsIntToString]
  have hnn : ¬ ((digitsToNat d : Int) < 0) := by
    simp
  rw [if_neg hnn]
  simp only [Int.toNat_natCast]
  have hsd : shortestDecimalFor (digitsToNat d) = digitsToNat d := by
    unfold shortestDecimalFor
    rw [if_pos hsmall]
  have hlt21 : digitsToNat d < 10 ^ 21 := lt_trans hsmall (by norm_num)
  simp only [jsNatToString, hsd]
  rw [if_pos hlt21, hcanon]
  exact hs.symm

/-- Concrete instance of the amended claim C1 at `"master-11"`. -/
theorem parse_create_roundTrip_witness :
    roundTripBuildKey (str "master-11") = str "master-11"
    ∧ (parseBuildKey (str "master-11")).2 = some ((digitsToNat (str "11") : Int)) :=
  parse_create_roundTrip (str "master-11") (str "master") (str "11")
    (by decide) (by decide) (by decide) (by decide) (by decide)

-- Facts about the ascending version listing of `/preDeploy`.

theorem nonEmptyVersions_pairwise (es : List EnvEntry) :
    (nonEmptyVersions es).Pairwise (fun a b => a ≤ b) := by
  have h := @sortLe_pairwise Int intAsc
    (fun a b => by
      unfold intAsc
      rcases le_total a b with h | h
      · exact Or.inl (decide_eq_true h)
      · exact Or.inr (decide_eq_true h))
    (fun a b c hab hbc => by
      unfold intAsc at *
      exact decide_eq_true (le_trans (of_decide_eq_true hab) (of_decide_eq_true hbc)))
    (((es.filter (fun e => !(isEmptyDir e))).map (fun e => jsParseInt e.name)).filterMap id)
  unfold nonEmptyVersions
  exact h.imp (fun hab => by exact of_decide_eq_true hab)

theorem getLastD_mem {l : List Int} (h : l ≠ []) (d : Int) : l.getLastD d ∈ l := by
  induction l generalizing d with
  | nil => exact absurd rfl h
  | cons y ys ih =>
    rw [List.getLastD_cons]
    cases ys with
    | nil => simp
    | cons z zs => exact List.mem_cons_of_mem _ (ih (by simp) y)

theorem pairwise_le_getLastD {l : List Int} (h : l.Pairwise (fun a b => a ≤ b)) (d : Int) :
    ∀ x ∈ l, x ≤ l.getLastD d := by
  induction l generalizing d with
  | nil => intro x hx; simp at hx
  | cons y ys ih =>
    intro x hx
    rw [List.pairwise_cons] at h
    rw [List.getLastD_cons]
    rcases List.mem_cons.mp hx with hx' | hx'
    · subst hx'
      cases hys : ys with
      | nil => simp [List.getLastD]
      | cons z zs =>
        subst hys
        exact h.1 _ (getLastD_mem (by simp) x)
    · exact ih h.2 y x hx'

theorem setEnvAux_self {name : Chars} {es : List EnvEntry} :
    ∀ ps : List (Chars × List EnvEntry),
      (ps.find? (fun p => p.1 == name)).map (fun p => p.2) = some es →
      setEnvAux name es ps = ps := by
  intro ps
  induction ps with
  | nil => intro h; simp [List.find?] at h
  | cons p ps ih =>
    intro h
    rw [List.find?_cons] at h
    cases hp : (p.1 == name) with
    | true =>
      rw [hp] at h
      have hname : p.1 = name := beq_iff_eq.mp hp
      obtain ⟨p1, p2⟩ := p
      have h2 : p2 = es := by simpa using h
      simp only at hname
      unfold setEnvAux
      rw [if_pos hp]
      rw [← hname, ← h2]
    | false =>
      rw [hp] at h
      simp only at h
      unfold setEnvAux
      rw [if_neg (by simp [hp])]
      rw [ih h]

theorem setEnv_self {g : GameDir} {name : Chars} {es : List EnvEntry}
    (h : lookupEnv g name = some es) : setEnv g name es = g := by
  unfold lookupEnv at h
  unfold setEnv
  rw [setEnvAux_self g.envs h]

-- Claim C8.

/-- Claim C8: `/preDeploy` requested with a version that already exists as a
non-empty directory in the environment fails with the duplicate-version
conflict, suggests the maximal existing version plus one as `newBuildVersion`,
returns the existing non-empty build versions sorted ascending (the suggested
version is one more than an element dominating the whole listing), and leaves
the state — in particular the directories — unchanged. -/
theorem preDeploy_duplicate_conflict (g : GameDir) (envName versionStr : Chars) (v : Int)
    (es : List EnvEntry)
    (hparse : jsParseInt versionStr = some v) (hpos : 0 < v)
    (henv : lookupEnv g envName = some es)
    (hdup : v ∈ nonEmptyVersions es) :
    preDeploy g envName versionStr
      = (g, .error (.duplicateVersion v ((nonEmptyVersions es).getLastD 0 + 1)
          (nonEmptyVersions es)))
    ∧ (nonEmptyVersions es).Pairwise (fun a b => a ≤ b)
    ∧ (∀ x ∈ nonEmptyVersions es, x ≤ (nonEmptyVersions es).getLastD 0)
    ∧ (nonEmptyVersions es).getLastD 0 ∈ nonEmptyVersions es := by
  refine ⟨?_, nonEmptyVersions_pairwise es,
    pairwise_le_getLastD (nonEmptyVersions_pairwise es) 0,
    getLastD_mem (List.ne_nil_of_mem hdup) 0⟩
  simp only [preDeploy, hparse]
  rw [if_neg (not_le.mpr hpos)]
  simp only [henv, Option.getD_some]
  rw [setEnv_self henv]
  rw [if_pos (List.elem_eq_true_of_mem hdup)]

/-- Concrete instance of claim C8: two non-empty builds `1`, `2` exist and
version `2` is requested again. -/
theorem preDeploy_duplicate_conflict_witness :
    preDeploy
        ⟨[(str "dev",
            [⟨str "1", true, false, false, false, emptyBuildInfo, [str "x"]⟩,
             ⟨str "2", true, false, false, false, emptyBuildInfo, [str "x"]⟩])],
          ⟨none, [], none⟩⟩
        (str "dev") (str "2")
      = (⟨[(str "dev",
            [⟨str "1", true, false, false, false, emptyBuildInfo, [str "x"]⟩,
             ⟨str "2", true, false, false, false, emptyBuildInfo, [str "x"]⟩])],
          ⟨none, [], none⟩⟩,
          .error (.duplicateVersion 2 3 [1, 2])) := by
  have h := preDeploy_duplicate_conflict
    ⟨[(str "dev",
        [⟨str "1", true, false, false, false, emptyBuildInfo, [str "x"]⟩,
         ⟨str "2", true, false, false, false, emptyBuildInfo, [str "x"]⟩])],
      ⟨none, [], none⟩⟩
    (str "dev") (str "2") 2
    [⟨str "1", true, false, false, false, emptyBuildInfo, [str "x"]⟩,
     ⟨str "2", true, false, false, false, emptyBuildInfo, [str "x"]⟩]
    (by decide) (by decide) (by rfl) (by decide)
  exact h.1

-- Claim C10.

set_option maxRecDepth 8000 in
/-- Counterexample to claim C10 as stated: the leading decimal digits of
`"9007199254740993"` form the positive integer `2^53 + 1`, but the request
is accepted with version `9007199254740992` — `parseInt`'s float64 value —
not truncated to that integer. -/
theorem preDeploy_version_lax_counterexample :
    digitsToNat (leadingDigits (str "9007199254740993")) = 9007199254740993
    ∧ (preDeploy ⟨[], ⟨none, [], none⟩⟩ (str "dev") (str "9007199254740993")).2
        = .ok { newBuildVersion := 9007199254740992, builds := [] }
    ∧ (9007199254740992 : Int) ≠ 9007199254740993 :=
  ⟨by decide, rfl, by decide⟩

/-- Claim C10 (amended): `/preDeploy`'s version validation is lax.  The
version path parameter goes through JS `parseInt`, so the request is
rejected with the invalid-version error exactly when parseInt yields no
positive value; any parsed positive value is the one the request proceeds
with; a string starting with a decimal digit and no `0x` hex prefix parses
to the float64 rounding of its longest leading digit run, and when that
run's value is a positive integer below `2^53` the request is accepted with
exactly that integer (so `"7abc"` and `"3.9"` are accepted as versions `7`
and `3`); parseInt also skips leading whitespace, accepts a `+` sign and
reads a `0x` prefix as hex (`" 7"`, `"+7"`, `"0x5"` parse as `7`, `7`,
`5`). -/
theorem preDeploy_version_lax :
    (∀ (g : GameDir) (envName versionStr : Chars),
      (((preDeploy g envName versionStr).2 = Except.error PreDeployErr.invalidVersion) ↔
        ∀ v : Int, jsParseInt versionStr = some v → v ≤ 0)
      ∧ (∀ v : Int, jsParseInt versionStr = some v → 0 < v →
          usesVersion (preDeploy g envName versionStr).2 v)
      ∧ (∀ c rest, versionStr = c :: rest → c.isDigit = true →
          (∀ c1 rest2, rest = c1 :: rest2 → c = '0' → c1 ≠ 'x' ∧ c1 ≠ 'X') →
          jsParseInt versionStr
            = (roundNatToDouble (digitsToNat (leadingDigits versionStr))).map
                (fun n => ((n : Nat) : Int)))
      ∧ (∀ c rest, versionStr = c :: rest → c.isDigit = true →
          (∀ c1 rest2, rest = c1 :: rest2 → c = '0' → c1 ≠ 'x' ∧ c1 ≠ 'X') →
          0 < digitsToNat (leadingDigits versionStr) →
          digitsToNat (leadingDigits versionStr) < 2 ^ 53 →
          usesVersion (preDeploy g envName versionStr).2
            ((digitsToNat (leadingDigits versionStr) : Int))))
    ∧ jsParseInt (str "7abc") = some 7
    ∧ jsParseInt (str "3.9") = some 3
    ∧ jsParseInt (str " 7") = some 7
    ∧ jsParseInt (str "+7") = some 7
    ∧ jsParseInt (str "0x5") = some 5
    ∧ usesVersion (preDeploy ⟨[], ⟨none, [], none⟩⟩ (str "dev") (str "7abc")).2 7
    ∧ usesVersion (preDeploy ⟨[], ⟨none, [], none⟩⟩ (str "dev") (str "3.9")).2 3 := by
  have husv : ∀ (g : GameDir) (envName versionStr : Chars) (v : Int),
      jsParseInt versionStr = some v → 0 < v →
      usesVersion (preDeploy g envName versionStr).2 v := by
    intro g envName versionStr v hv hvpos
    simp only [preDeploy, hv]
    rw [if_neg (not_le.mpr hvpos)]
    split
    · exact rfl
    · split
      · exact rfl
      · split
        · exact rfl
        · split
          · exact trivial
          · exact rfl
  have h7 : (preDeploy ⟨[], ⟨none, [], none⟩⟩ (str "dev") (str "7abc")).2
      = .ok { newBuildVersion := 7, builds := [] } := rfl
  have h3 : (preDeploy ⟨[], ⟨none, [], none⟩⟩ (str "dev") (str "3.9")).2
      = .ok { newBuildVersion := 3, builds := [] } := rfl
  refine ⟨?_, by decide, by decide, by decide, by decide, by decide,
    by rw [h7]; exact rfl, by rw [h3]; exact rfl⟩
  intro g envName versionStr
  refine ⟨?_, fun v hv hvpos => husv g envName versionStr v hv hvpos, ?_, ?_⟩
  · cases hp : jsParseInt versionStr with
    | none =>
      simp only [preDeploy, hp]
      constructor
      · intro _ v hv
        exact absurd hv (by simp)
      · intro _
        try rfl
        try exact trivial
    | some b =>
      by_cases hb : b ≤ 0
      · simp only [preDeploy, hp]
        rw [if_pos hb]
        constructor
        · intro _ v hv
          cases hv
          exact hb
        · intro _
          rfl
      · constructor
        · intro hres
          exfalso
          simp only [preDeploy, hp] at hres
          rw [if_neg hb] at hres
          split at hres
          · simp at hres
          · split at hres
            · simp at hres
            · split at hres
              · simp at hres
              · split at hres
                · simp at hres
                · simp at hres
        · intro hall
          exact absurd (hall b rfl) hb
  · intro c rest hveq hc hnx
    subst hveq
    exact jsParseInt_digit_head hc hnx
  · intro c rest hveq hc hnx hpos hlt
    subst hveq
    have heq : jsParseInt (c :: rest)
        = some ((digitsToNat (leadingDigits (c :: rest)) : Int)) := by
      rw [jsParseInt_digit_head hc hnx, roundNatToDouble_small hlt]
      rfl
    exact husv g envName _ _ heq (by exact_mod_cast hpos)

-- Claim C3.

/-- Claim C3: publishing a build key that already appears in the ledger's
builds fails with the AlreadyReleased conflict (reporting the recorded
release's date), and the failed attempt leaves the whole state unchanged:
the duplicate check happens before any mutation. -/
theorem publish_already_released (g : GameDir) (k : Chars) (now : Nat) (b : ReleaseInfo)
    (hk : isBuildKey k = true)
    (hfound : (priorLedger g).builds.find? (fun item => item.key == k) = some b) :
    publish g (some k) now = (g, .error (.alreadyReleased k b.releasedAt)) := by
  simp only [publish, Option.orElse]
  rw [if_neg (by simp [hk])]
  rw [hfound]

/-- Concrete instance of claim C3: re-publishing `m-1`, already released at
time 5, fails with the conflict and the state is unchanged. -/
theorem publish_already_released_witness :
    publish
        ⟨[], ⟨some ⟨some (str "m-1"),
          [⟨str "m-1", str "i", str "f", 5, str "b", str "g", str "c"⟩]⟩, [], none⟩⟩
        (some (str "m-1")) 9
      = (⟨[], ⟨some ⟨some (str "m-1"),
          [⟨str "m-1", str "i", str "f", 5, str "b", str "g", str "c"⟩]⟩, [], none⟩⟩,
         .error (.alreadyReleased (str "m-1") 5)) :=
  publish_already_released _ _ 9
    ⟨str "m-1", str "i", str "f", 5, str "b", str "g", str "c"⟩ (by decide) rfl

-- Claim C5.

/-- Claim C5: rollback invoked with a buildKey equal to the ledger's current
release fails with the AlreadyCurrent conflict and performs no filesystem
writes: the state — in particular the ledger file and the `index.html`
symlink — is exactly unchanged. -/
theorem rollback_already_current (g : GameDir) (k : Chars) (r : Releases)
    (hk : isBuildKey k = true)
    (hled : g.platform.ledger = some r)
    (hcur : r.current = some k) :
    rollback g (some k) = (g, .error (.alreadyCurrent k)) := by
  simp only [rollback, Option.orElse]
  rw [if_neg (by simp [hk])]
  rw [hled]
  simp [hcur]

/-- Concrete instance of claim C5: rolling back to the current release `m-2`
fails with the conflict and the state (symlink target included) is unchanged. -/
theorem rollback_already_current_witness :
    rollback
        ⟨[], ⟨some ⟨some (str "m-2"),
          [⟨str "m-2", str "i2", str "f2", 7, str "b", str "g", str "c"⟩,
           ⟨str "m-1", str "i1", str "f1", 5, str "b", str "g", str "c"⟩]⟩,
          [], some (str "./index_m-2.html")⟩⟩
        (some (str "m-2"))
      = (⟨[], ⟨some ⟨some (str "m-2"),
          [⟨str "m-2", str "i2", str "f2", 7, str "b", str "g", str "c"⟩,
           ⟨str "m-1", str "i1", str "f1", 5, str "b", str "g", str "c"⟩]⟩,
          [], some (str "./index_m-2.html")⟩⟩,
         .error (.alreadyCurrent (str "m-2"))) :=
  rollback_already_current _ _
    ⟨some (str "m-2"),
      [⟨str "m-2", str "i2", str "f2", 7, str "b", str "g", str "c"⟩,
       ⟨str "m-1", str "i1", str "f1", 5, str "b", str "g", str "c"⟩]⟩
    (by decide) rfl rfl

theorem sortByReleasedAtDesc_length (l : List ReleaseInfo) :
    (sortByReleasedAtDesc l).length = l.length :=
  sortLe_length relDesc l

-- Claim C2.

/-- Claim C2 is refuted in general: a successful publish persists the ledger
and then immediately prunes it with a keep-count of 5, so with five releases
already recorded, publishing `a-6` succeeds but the persisted ledger does not
have the new release prepended to the old builds list — pruning leaves only
the newest five. -/
theorem publish_records_release_counterexample :
    (publish fullGame (some (str "a-6")) 6).2
        = .ok (createNewRelease (str "a-6") sampleBuildInfo 6)
    ∧ (publish fullGame (some (str "a-6")) 6).1.platform.ledger
        ≠ some { current := some (str "a-6")
                 builds := createNewRelease (str "a-6") sampleBuildInfo 6 :: oldLedger5.builds } := by
  constructor
  · rfl
  · decide

/-- Claim C2 (amended): after a successful publish of build key `k` starting
from a ledger with fewer than five recorded builds (so pruning removes
nothing), the persisted ledger has `current = k` and the new ReleaseInfo —
key `k`, index `index_<k>.html`, files `files_<k>.json` — prepended at the
front of `builds`; with five or more prior builds, pruning truncates the
persisted list to the newest five.  In particular publishing `master-11` on an
empty ledger yields exactly that one-element ledger. -/
theorem publish_records_release (g : GameDir) (k : Chars) (now : Nat)
    (es : List EnvEntry) (e : EnvEntry)
    (hk : isBuildKey k = true)
    (hnodup : (priorLedger g).builds.find? (fun item => item.key == k) = none)
    (henv : lookupEnv g (parseBuildKey k).1 = some es)
    (hsrc : es.find? (fun x => x.name == jsNumOptToString (parseBuildKey k).2) = some e)
    (hbi : e.hasBuildInfo = true)
    (hidx : e.hasIndexHtml = true)
    (hlen : (priorLedger g).builds.length ≤ 4) :
    ∃ g2, publish g (some k) now = (g2, .ok (createNewRelease k e.buildInfo now))
      ∧ g2.platform.ledger
          = some { current := some k
                   builds := createNewRelease k e.buildInfo now :: (priorLedger g).builds } := by
  simp only [publish, Option.orElse]
  rw [if_neg (by simp [hk])]
  simp only [hnodup, henv, hsrc]
  rw [if_neg (by simp [hbi])]
  rw [if_neg (by simp [hidx])]
  simp only [removeOldReleases]
  have hdrop : ((sortByReleasedAtDesc
      (createNewRelease k e.buildInfo now :: (priorLedger g).builds)).drop 5) = [] := by
    apply List.drop_eq_nil_iff.mpr
    rw [sortByReleasedAtDesc_length, List.length_cons]
    omega
  rw [if_pos (by simp [hdrop])]
  exact ⟨_, rfl, rfl⟩

/-- Concrete instance of the amended claim C2, the spec's own example:
publishing `master-11` on an absent ledger records
`current = "master-11"` and the single release. -/
theorem publish_records_release_witness :
    ∃ g2, publish
        ⟨[(str "master",
            [⟨str "11", true, false, true, true, sampleBuildInfo,
              [str "index.html", str "build_info.json", str "game.js"]⟩])],
          ⟨none, [], none⟩⟩
        (some (str "master-11")) 42
      = (g2, .ok (createNewRelease (str "master-11") sampleBuildInfo 42))
      ∧ g2.platform.ledger
          = some { current := some (str "master-11")
                   builds := [createNewRelease (str "master-11") sampleBuildInfo 42] } :=
  publish_records_release
    ⟨[(str "master",
        [⟨str "11", true, false, true, true, sampleBuildInfo,
          [str "index.html", str "build_info.json", str "game.js"]⟩])],
      ⟨none, [], none⟩⟩
    (str "master-11") 42
    [⟨str "11", true, false, true, true, sampleBuildInfo,
      [str "index.html", str "build_info.json", str "game.js"]⟩]
    ⟨str "11", true, false, true, true, sampleBuildInfo,
      [str "index.html", str "build_info.json", str "game.js"]⟩
    (by decide) rfl rfl rfl rfl rfl (by decide)

theorem readAllManifests_eq (fs : List PFile) :
    ∀ bs : List ReleaseInfo, (∀ b ∈ bs, (fs.find? (fun f => f.name == b.files)).isSome) →
      readAllManifests fs bs = some (bs.map (fun b => manifestOf fs b)) := by
  intro bs
  induction bs with
  | nil => intro _; rfl
  | cons b bs ih =>
    intro h
    have hb := h b (List.mem_cons_self _ _)
    unfold readAllManifests
    cases hf : fs.find? (fun f => f.name == b.files) with
    | none => rw [hf] at hb; simp at hb
    | some f =>
      simp only [hf, Option.map_some']
      rw [ih (fun x hx => h x (List.mem_cons_of_mem _ hx))]
      simp [manifestOf, hf]

-- Claim C6.

/-- Claim C6: `removeOldReleases` with keep-count `keep` persists a ledger
with exactly `min keep total` builds — the whole list when nothing is
removed, otherwise the newest `keep` by `releasedAt` descending; afterwards
every removed release's `index_<key>.html` and `files_<key>.json` is absent
from the platform directory, every file listed in a kept release's manifest
that was present remains present, the `index.html` symlink and `releases.json`
are never deleted, and the removed keys are returned.  (Hypotheses: the kept
releases' manifests exist, and — as in every publish-produced state — the
removed releases' asset names are not protected by the keep-set.) -/
theorem removeOldReleases_spec (d : PlatformDir) (r : Releases) (keep : Nat)
    (hled : d.ledger = some r)
    (hman : ∀ b ∈ keptBuilds r keep, (d.files.find? (fun f => f.name == b.files)).isSome)
    (hclean : ∀ b ∈ removedBuilds r keep,
        b.index ∉ keepNames d r keep ∧ b.files ∉ keepNames d r keep) :
    ∃ d2 removed, removeOldReleases d keep = some (d2, removed)
      ∧ (∃ r2, d2.ledger = some r2 ∧ r2.current = r.current
          ∧ r2.builds.length = min keep r.builds.length
          ∧ r2.builds = (if r.builds.length ≤ keep then r.builds else keptBuilds r keep))
      ∧ (∀ b ∈ removedBuilds r keep,
          b.index ∉ d2.files.map (fun f => f.name)
          ∧ b.files ∉ d2.files.map (fun f => f.name))
      ∧ (∀ b ∈ keptBuilds r keep, ∀ n ∈ manifestOf d.files b,
          (∃ f ∈ d.files, f.name = n) → ∃ f ∈ d2.files, f.name = n)
      ∧ d2.indexTarget = d.indexTarget
      ∧ removed = (removedBuilds r keep).map (fun b => b.key) := by
  by_cases hcase : (sortByReleasedAtDesc r.builds).drop keep = []
  · have hle : r.builds.length ≤ keep := by
      have := List.drop_eq_nil_iff.mp hcase
      rwa [sortByReleasedAtDesc_length] at this
    have hres : removeOldReleases d keep = some (d, []) := by
      simp only [removeOldReleases, hled]
      rw [if_pos (by simp [List.isEmpty_iff, hcase])]
    refine ⟨d, [], hres, ⟨r, hled, rfl, (Nat.min_eq_right hle).symm, by rw [if_pos hle]⟩,
      ?_, ?_, rfl, ?_⟩
    · intro b hb
      rw [removedBuilds, hcase] at hb
      simp at hb
    · intro b _ n _ hex
      exact hex
    · rw [removedBuilds, hcase]
      rfl
  · have hread : readAllManifests d.files ((sortByReleasedAtDesc r.builds).take keep)
        = some (((sortByReleasedAtDesc r.builds).take keep).map (fun b => manifestOf d.files b)) :=
      readAllManifests_eq d.files (keptBuilds r keep) hman
    have hgt : ¬ r.builds.length ≤ keep := by
      intro hle
      exact hcase (List.drop_eq_nil_iff.mpr (by rwa [sortByReleasedAtDesc_length]))
    have hres : removeOldReleases d keep = some
        ({ d with ledger := some { r with builds := keptBuilds r keep }
                  files := d.files.filter (fun f => (keepNames d r keep).contains f.name) },
          (removedBuilds r keep).map (fun b => b.key)) := by
      simp only [removeOldReleases, hled]
      rw [if_neg (by simp [List.isEmpty_iff, hcase])]
      rw [hread]
      rfl
    refine ⟨_, _, hres, ⟨{ r with builds := keptBuilds r keep }, rfl, rfl, ?_, by rw [if_neg hgt]⟩,
      ?_, ?_, rfl, rfl⟩
    · simp only [keptBuilds, List.length_take, sortByReleasedAtDesc_length]
    · intro b hb
      obtain ⟨h1, h2⟩ := hclean b hb
      constructor
      · intro hmem
        obtain ⟨f, hffil, hfname⟩ := List.mem_map.mp hmem
        obtain ⟨_, hkeep⟩ := List.mem_filter.mp hffil
        exact h1 (by rw [← hfname]; exact List.elem_iff.mp hkeep)
      · intro hmem
        obtain ⟨f, hffil, hfname⟩ := List.mem_map.mp hmem
        obtain ⟨_, hkeep⟩ := List.mem_filter.mp hffil
        exact h2 (by rw [← hfname]; exact List.elem_iff.mp hkeep)
    · intro b hb n hn hex
      obtain ⟨f, hf, hfname⟩ := hex
      refine ⟨f, List.mem_filter.mpr ⟨hf, ?_⟩, hfname⟩
      have hnk : n ∈ keepNames d r keep := by
        unfold keepNames
        refine List.mem_append.mpr (Or.inl (List.mem_flatten.mpr ⟨manifestOf d.files b, ?_, hn⟩))
        exact List.mem_map.mpr ⟨b, hb, rfl⟩
      rw [hfname]
      exact List.elem_eq_true_of_mem hnk

/-- Concrete instance of claim C6: pruning a three-release platform directory
to two releases. -/
theorem removeOldReleases_spec_witness :
    ∃ d2 removed, removeOldReleases pruneSampleDir 2 = some (d2, removed)
      ∧ (∃ r2, d2.ledger = some r2 ∧ r2.current = prunedLedger3.current
          ∧ r2.builds.length = min 2 prunedLedger3.builds.length
          ∧ r2.builds = (if prunedLedger3.builds.length ≤ 2 then prunedLedger3.builds
              else keptBuilds prunedLedger3 2))
      ∧ (∀ b ∈ removedBuilds prunedLedger3 2,
          b.index ∉ d2.files.map (fun f => f.name)
          ∧ b.files ∉ d2.files.map (fun f => f.name))
      ∧ (∀ b ∈ keptBuilds prunedLedger3 2, ∀ n ∈ manifestOf pruneSampleDir.files b,
          (∃ f ∈ pruneSampleDir.files, f.name = n) → ∃ f ∈ d2.files, f.name = n)
      ∧ d2.indexTarget = pruneSampleDir.indexTarget
      ∧ removed = (removedBuilds prunedLedger3 2).map (fun b => b.key) :=
  removeOldReleases_spec pruneSampleDir prunedLedger3 2 rfl (by decide) (by decide)

theorem sortByReleasedAtDesc_cons {x : ReleaseInfo} {l : List ReleaseInfo}
    (h : ∀ b ∈ l, b.releasedAt ≤ x.releasedAt) :
    sortByReleasedAtDesc (x :: l) = x :: sortByReleasedAtDesc l :=
  sortLe_cons_head (fun y hy => by simp [relDesc, h y hy])

/-- A successful publish returns the release stamped `now` and persists either
the unshifted ledger (nothing pruned) or its sorted five-newest truncation. -/
theorem publish_ok_ledger (g : GameDir) (kp : Option Chars) (now : Nat) (g2 : GameDir)
    (rel : ReleaseInfo) (hpub : publish g kp now = (g2, .ok rel)) :
    rel.releasedAt = now ∧
    (g2.platform.ledger
        = some { current := some rel.key, builds := rel :: (priorLedger g).builds }
     ∨ g2.platform.ledger
        = some { current := some rel.key
                 builds := (sortByReleasedAtDesc (rel :: (priorLedger g).builds)).take 5 }) := by
  simp only [publish] at hpub
  split at hpub
  · exact absurd hpub (by simp)
  · split at hpub
    · exact absurd hpub (by simp)
    · split at hpub
      · exact absurd hpub (by simp)
      · split at hpub
        · exact absurd hpub (by simp)
        · split at hpub
          · exact absurd hpub (by simp)
          · split at hpub
            · exact absurd hpub (by simp)
            · split at hpub
              · exact absurd hpub (by simp)
              · split at hpub
                · exact absurd hpub (by simp)
                · rw [Prod.mk.injEq] at hpub
                  obtain ⟨hg2, hrel⟩ := hpub
                  rw [Except.ok.injEq] at hrel
                  subst hrel
                  subst hg2
                  rename_i e _ _ p3rem heq
                  refine ⟨rfl, ?_⟩
                  simp only [removeOldReleases] at heq
                  split at heq
                  · rw [Option.some.injEq, Prod.mk.injEq] at heq
                    obtain ⟨hp3, _⟩ := heq
                    left
                    rw [← hp3]
                    exact rfl
                  · split at heq
                    · exact absurd heq (by simp)
                    · rw [Option.some.injEq, Prod.mk.injEq] at heq
                      obtain ⟨hp3, _⟩ := heq
                      right
                      rw [← hp3]
                      exact rfl

-- Claim C7.

/-- Claim C7: every `releases.json` persisted by a successful Publish (under
clock monotonicity: no already-recorded release is stamped later than `now`),
by a successful Rollback, and by PruneReleases in the state shape Publish
invokes it (current is the newest, just-recorded release; keep-count at least
one) satisfies the ledger invariant — whenever `builds` is non-empty and
`current` is non-null, `current` equals some recorded build's key.  Starting
from an absent or empty ledger every persisted document therefore satisfies
it. -/
theorem ledger_invariant_preserved :
    (∀ (g : GameDir) (kp : Option Chars) (now : Nat) (g2 : GameDir) (rel : ReleaseInfo),
        (∀ b ∈ (priorLedger g).builds, b.releasedAt ≤ now) →
        publish g kp now = (g2, .ok rel) → platformInv g2.platform)
    ∧ (∀ (g : GameDir) (kp : Option Chars) (g2 : GameDir) (rel : ReleaseInfo),
        rollback g kp = (g2, .ok rel) → platformInv g2.platform)
    ∧ (∀ (d : PlatformDir) (keep : Nat) (d2 : PlatformDir) (removed : List Chars)
        (r : Releases) (b0 : ReleaseInfo) (rest : List ReleaseInfo),
        d.ledger = some r → r.builds = b0 :: rest → r.current = some b0.key →
        (∀ b ∈ rest, b.releasedAt ≤ b0.releasedAt) → 1 ≤ keep →
        removeOldReleases d keep = some (d2, removed) → platformInv d2) := by
  refine ⟨?_, ?_, ?_⟩
  · intro g kp now g2 rel hmono hpub
    obtain ⟨hstamp, hledg⟩ := publish_ok_ledger g kp now g2 rel hpub
    intro r2 hr2 c _ hcur
    rcases hledg with h | h
    · rw [h, Option.some.injEq] at hr2
      subst hr2
      simp only [Option.some.injEq] at hcur
      exact ⟨rel, List.mem_cons_self _ _, hcur⟩
    · rw [h, Option.some.injEq] at hr2
      subst hr2
      simp only [Option.some.injEq] at hcur
      refine ⟨rel, ?_, hcur⟩
      have hsort : sortByReleasedAtDesc (rel :: (priorLedger g).builds)
          = rel :: sortByReleasedAtDesc (priorLedger g).builds :=
        sortByReleasedAtDesc_cons (fun b hb => by rw [hstamp]; exact hmono b hb)
      simp only [hsort, List.take_succ_cons]
      exact List.mem_cons_self _ _
  · intro g kp g2 rel hrb
    simp only [rollback] at hrb
    split at hrb
    · exact absurd hrb (by simp)
    · split at hrb
      · exact absurd hrb (by simp)
      · split at hrb
        · exact absurd hrb (by simp)
        · split at hrb
          · exact absurd hrb (by simp)
          · split at hrb
            · exact absurd hrb (by simp)
            · rename_i release hfind
              rw [Prod.mk.injEq] at hrb
              obtain ⟨hg2, _⟩ := hrb
              subst hg2
              intro r2 hr2 c _ hcur
              simp only [updateIndexHtmlSymlink, Option.some.injEq] at hr2
              subst hr2
              simp only [Option.some.injEq] at hcur
              have hkey : release.key = c := by
                have hpk := List.find?_some hfind
                rw [beq_iff_eq] at hpk
                rw [hpk, hcur]
              exact ⟨release, List.mem_of_find?_eq_some hfind, hkey⟩
  · intro d keep d2 removed r b0 rest hled hbuilds hcur hmono hkeep heq
    simp only [removeOldReleases, hled] at heq
    split at heq
    · rw [Option.some.injEq, Prod.mk.injEq] at heq
      obtain ⟨hd2, _⟩ := heq
      subst hd2
      intro r2 hr2 c _ hc
      rw [hled, Option.some.injEq] at hr2
      subst hr2
      rw [hcur, Option.some.injEq] at hc
      exact ⟨b0, by rw [hbuilds]; exact List.mem_cons_self _ _, hc⟩
    · split at heq
      · exact absurd heq (by simp)
      · rw [Option.some.injEq, Prod.mk.injEq] at heq
        obtain ⟨hd2, _⟩ := heq
        subst hd2
        intro r2 hr2 c _ hc
        simp only [Option.some.injEq] at hr2
        subst hr2
        rw [hcur, Option.some.injEq] at hc
        refine ⟨b0, ?_, hc⟩
        have hsort : sortByReleasedAtDesc r.builds = b0 :: sortByReleasedAtDesc rest := by
          rw [hbuilds]
          exact sortByReleasedAtDesc_cons hmono
        rw [hsort]
        cases keep with
        | zero => exact absurd hkeep (by omega)
        | succ k =>
          simp only [List.take_succ_cons]
          exact List.mem_cons_self _ _

/-- Concrete instance of claim C7: the ledger persisted by publishing
`master-11` on an empty store satisfies the invariant. -/
theorem ledger_invariant_preserved_witness :
    platformInv (publish
        ⟨[(str "master",
            [⟨str "11", true, false, true, true, sampleBuildInfo,
              [str "index.html", str "build_info.json", str "game.js"]⟩])],
          ⟨none, [], none⟩⟩
        (some (str "master-11")) 42).1.platform :=
  (ledger_invariant_preserved).1
    ⟨[(str "master",
        [⟨str "11", true, false, true, true, sampleBuildInfo,
          [str "index.html", str "build_info.json", str "game.js"]⟩])],
      ⟨none, [], none⟩⟩
    (some (str "master-11")) 42 _
    (createNewRelease (str "master-11") sampleBuildInfo 42)
    (by decide) rfl

-- Facts about the default-rollback walk (claim C4).

theorem findFirstIdx_eq_key (l : List ReleaseInfo) (K : Chars) :
    ∀ (i : Nat) (hi : i < l.length),
      (l.map (fun b => b.key)).Nodup → (l.get ⟨i, hi⟩).key = K →
      findFirstIdx (fun item => (some K : Option Chars) == some item.key) l = some i := by
  induction l with
  | nil => intro i hi; simp at hi
  | cons b bs ih =>
    intro i hi hnd hK
    rw [List.map_cons, List.nodup_cons] at hnd
    cases i with
    | zero =>
      have hK0 : b.key = K := hK
      unfold findFirstIdx
      rw [if_pos (by rw [← hK0]; simp)]
    | succ j =>
      have hj : j < bs.length := Nat.lt_of_succ_lt_succ hi
      have hKj : (bs.get ⟨j, hj⟩).key = K := hK
      unfold findFirstIdx
      rw [if_neg ?hne, ih j hj hnd.2 hKj]
      · rfl
      case hne =>
        intro habs
        have hKb : K = b.key := by
          rwa [beq_iff_eq, Option.some.injEq] at habs
        exact hnd.1 (List.mem_map.mpr
          ⟨bs.get ⟨j, hj⟩, List.get_mem _ _ _, by rw [hKj]; exact hKb⟩)

theorem find?_key_get (l : List ReleaseInfo) :
    ∀ (j : Nat) (hj : j < l.length),
      (l.map (fun b => b.key)).Nodup →
      l.find? (fun item => item.key == (l.get ⟨j, hj⟩).key) = some (l.get ⟨j, hj⟩) := by
  induction l with
  | nil => intro j hj; simp at hj
  | cons b bs ih =>
    intro j hj hnd
    rw [List.map_cons, List.nodup_cons] at hnd
    cases j with
    | zero =>
      have hpb : (b.key == ((b :: bs).get ⟨0, hj⟩).key) = true := beq_self_eq_true _
      simp only [List.find?_cons, hpb]
      rfl
    | succ j' =>
      have hj' : j' < bs.length := Nat.lt_of_succ_lt_succ hj
      have hpb : (b.key == ((b :: bs).get ⟨j' + 1, hj⟩).key) = false := by
        apply beq_eq_false_iff_ne.mpr
        intro he
        exact hnd.1 (List.mem_map.mpr ⟨bs.get ⟨j', hj'⟩, List.get_mem _ _ _, he.symm⟩)
      simp only [List.find?_cons, hpb]
      exact ih j' hj' hnd.2

theorem keys_ne_of_nodup (l : List ReleaseInfo) (hnd : (l.map (fun b => b.key)).Nodup)
    (i j : Nat) (hi : i < l.length) (hj : j < l.length) (hij : i ≠ j) :
    (l.get ⟨i, hi⟩).key ≠ (l.get ⟨j, hj⟩).key := by
  intro he
  have hlen : (l.map (fun b => b.key)).length = l.length := l.length_map _
  have h1 : (l.map (fun b => b.key)).get ⟨i, by rw [hlen]; exact hi⟩
      = (l.map (fun b => b.key)).get ⟨j, by rw [hlen]; exact hj⟩ := by
    rw [List.get_map, List.get_map]
    exact he
  have h2 := (hnd.get_inj_iff).mp h1
  rw [Fin.mk.injEq] at h2
  exact hij h2

theorem getPrevious_at (fs : List PFile) (it : Option Chars)
    (builds : List ReleaseInfo) (i : Nat) (hi : i < builds.length)
    (hsorted : builds.Pairwise (fun a b => b.releasedAt ≤ a.releasedAt))
    (hnd : (builds.map (fun b => b.key)).Nodup) :
    getPreviousReleaseBuildKey ⟨some ⟨some ((builds.get ⟨i, hi⟩).key), builds⟩, fs, it⟩
      = builds[i + 1]?.map (fun b => b.key) := by
  have hsort : sortByReleasedAtDesc builds = builds :=
    sortLe_eq_self (hsorted.imp (fun h => decide_eq_true h))
  simp only [getPreviousReleaseBuildKey, hsort]
  rw [findFirstIdx_eq_key builds ((builds.get ⟨i, hi⟩).key) i hi hnd rfl]

/-- One default rollback from the release at sorted position `i` moves
`current` to the release at position `i + 1`, rewrites only the ledger's
current pointer, and repoints the `index.html` symlink. -/
theorem rollback_default_step (envs : List (Chars × List EnvEntry)) (fs : List PFile)
    (it : Option Chars) (builds : List ReleaseInfo) (i : Nat)
    (hi1 : i + 1 < builds.length)
    (hsorted : builds.Pairwise (fun a b => b.releasedAt ≤ a.releasedAt))
    (hnd : (builds.map (fun b => b.key)).Nodup)
    (hvalid : ∀ b ∈ builds, isBuildKey b.key = true) :
    rollback (rollbackState envs fs it builds
        ((builds.get ⟨i, Nat.lt_of_succ_lt hi1⟩).key)) none
      = (rollbackState envs fs
          (some (str "./" ++ indexFileName ((builds.get ⟨i + 1, hi1⟩).key)))
          builds ((builds.get ⟨i + 1, hi1⟩).key),
         .ok (builds.get ⟨i + 1, hi1⟩)) := by
  have hprev : getPreviousReleaseBuildKey
      ⟨some ⟨some ((builds.get ⟨i, Nat.lt_of_succ_lt hi1⟩).key), builds⟩, fs, it⟩
      = some ((builds.get ⟨i + 1, hi1⟩).key) := by
    rw [getPrevious_at fs it builds i (Nat.lt_of_succ_lt hi1) hsorted hnd,
      List.getElem?_eq_getElem hi1]
    rfl
  simp only [rollback, rollbackState, Option.orElse, hprev]
  rw [if_neg (by
    have hv := hvalid (builds.get ⟨i + 1, hi1⟩) (List.get_mem _ _ _)
    simp only [List.get_eq_getElem] at hv
    simp [hv])]
  rw [if_neg ?hne]
  · rw [find?_key_get builds (i + 1) hi1 hnd]
    rfl
  case hne =>
    intro habs
    have heq : (builds.get ⟨i, Nat.lt_of_succ_lt hi1⟩).key = (builds.get ⟨i + 1, hi1⟩).key := by
      rwa [beq_iff_eq, Option.some.injEq] at habs
    exact keys_ne_of_nodup builds hnd i (i + 1) _ hi1 (by omega) heq

/-- A default rollback from the oldest release fails with NoPreviousBuild and
changes nothing. -/
theorem rollback_default_last (envs : List (Chars × List EnvEntry)) (fs : List PFile)
    (it : Option Chars) (builds : List ReleaseInfo) (hne : builds ≠ [])
    (hlast : builds.length - 1 < builds.length)
    (hsorted : builds.Pairwise (fun a b => b.releasedAt ≤ a.releasedAt))
    (hnd : (builds.map (fun b => b.key)).Nodup) :
    rollback (rollbackState envs fs it builds
        ((builds.get ⟨builds.length - 1, hlast⟩).key)) none
      = (rollbackState envs fs it builds ((builds.get ⟨builds.length - 1, hlast⟩).key),
         .error .noPrevious) := by
  have hpos : 0 < builds.length := List.length_pos.mpr hne
  have hprev : getPreviousReleaseBuildKey
      ⟨some ⟨some ((builds.get ⟨builds.length - 1, hlast⟩).key), builds⟩, fs, it⟩ = none := by
    rw [getPrevious_at fs it builds (builds.length - 1) hlast hsorted hnd,
      List.getElem?_eq_none (by omega)]
    rfl
  simp only [rollback, rollbackState, Option.orElse, hprev]

/-- The state after `k` default rollbacks from the newest of a
sorted-descending ledger: `current` sits at sorted position `k`, `builds` and
the platform files untouched. -/
theorem rollbackIter_at (envs : List (Chars × List EnvEntry)) (fs : List PFile)
    (it : Option Chars) (builds : List ReleaseInfo)
    (hsorted : builds.Pairwise (fun a b => b.releasedAt ≤ a.releasedAt))
    (hnd : (builds.map (fun b => b.key)).Nodup)
    (hvalid : ∀ b ∈ builds, isBuildKey b.key = true)
    (h0 : 0 < builds.length) :
    ∀ k, (hk : k < builds.length) →
      rollbackIter (rollbackState envs fs it builds ((builds.get ⟨0, h0⟩).key)) k
        = rollbackState envs fs
            (if k = 0 then it
              else some (str "./" ++ indexFileName ((builds.get ⟨k, hk⟩).key)))
            builds ((builds.get ⟨k, hk⟩).key) := by
  intro k
  induction k with
  | zero => intro hk; simp [rollbackIter]
  | succ k ih =>
    intro hk
    have hk' : k < builds.length := Nat.lt_of_succ_lt hk
    unfold rollbackIter
    rw [ih hk']
    rw [rollback_default_step envs fs _ builds k hk hsorted hnd hvalid]
    simp

-- Claim C4.

/-- Claim C4: with `buildKey` omitted, rollback targets the entry immediately
following the current release in `releasedAt`-descending order.  Starting
from a ledger of sequentially published builds (sorted newest-first, distinct
valid keys) with the newest current, the `k`-th repeated default rollback
succeeds and moves `current` back exactly one position (to the release at
sorted index `k + 1`, `builds` unchanged); after `N − 1` default rollbacks
`current` is the oldest release; one more default rollback fails with
NoPreviousBuild and changes nothing. -/
theorem rollback_default_walks (envs : List (Chars × List EnvEntry)) (fs : List PFile)
    (it : Option Chars) (builds : List ReleaseInfo) (hne : builds ≠ [])
    (hsorted : builds.Pairwise (fun a b => b.releasedAt ≤ a.releasedAt))
    (hnd : (builds.map (fun b => b.key)).Nodup)
    (hvalid : ∀ b ∈ builds, isBuildKey b.key = true) :
    (∀ k, (hk : k + 1 < builds.length) →
        (rollback (rollbackIter
            (rollbackState envs fs it builds ((builds.head hne).key)) k) none).2
          = .ok (builds.get ⟨k + 1, hk⟩)
        ∧ (rollbackIter (rollbackState envs fs it builds
              ((builds.head hne).key)) (k + 1)).platform.ledger
          = some ⟨some ((builds.get ⟨k + 1, hk⟩).key), builds⟩)
    ∧ (rollbackIter (rollbackState envs fs it builds ((builds.head hne).key))
          (builds.length - 1)).platform.ledger
        = some ⟨some ((builds.getLast hne).key), builds⟩
    ∧ rollback (rollbackIter (rollbackState envs fs it builds ((builds.head hne).key))
          (builds.length - 1)) none
        = (rollbackIter (rollbackState envs fs it builds ((builds.head hne).key))
            (builds.length - 1), .error .noPrevious) := by
  have h0 : 0 < builds.length := List.length_pos.mpr hne
  have hhead : builds.head hne = builds.get ⟨0, h0⟩ := (List.get_mk_zero h0).symm
  rw [hhead]
  have hiter := rollbackIter_at envs fs it builds hsorted hnd hvalid h0
  refine ⟨?_, ?_, ?_⟩
  · intro k hk
    have hk' : k < builds.length := Nat.lt_of_succ_lt hk
    constructor
    · rw [hiter k hk']
      rw [rollback_default_step envs fs _ builds k hk hsorted hnd hvalid]
    · rw [hiter (k + 1) hk]
      rfl
  · rw [hiter (builds.length - 1) (by omega)]
    rw [List.getLast_eq_get]
    rfl
  · rw [hiter (builds.length - 1) (by omega)]
    exact rollback_default_last envs fs _ builds hne (by omega) hsorted hnd

/-- Concrete instance of claim C4 with two published releases `a-2`, `a-1`:
the first default rollback lands on `a-1`, the second fails with
NoPreviousBuild and changes nothing. -/
theorem rollback_default_walks_witness :
    (rollback (rollbackIter
        (rollbackState [] [] none [oldRelease 2, oldRelease 1] ((oldRelease 2).key)) 0) none).2
      = .ok (oldRelease 1)
    ∧ rollback (rollbackIter
        (rollbackState [] [] none [oldRelease 2, oldRelease 1] ((oldRelease 2).key)) 1) none
      = (rollbackIter
          (rollbackState [] [] none [oldRelease 2, oldRelease 1] ((oldRelease 2).key)) 1,
         .error .noPrevious) := by
  have h := rollback_default_walks [] [] none [oldRelease 2, oldRelease 1]
    (List.cons_ne_nil _ _) (by decide) (by decide) (by decide)
  exact ⟨(h.1 0 (by decide)).1, h.2.2⟩
